import Mathlib

/-!
Verification development for the core of a Metamath database processor
(`database.rs`, `formula.rs`).

The formula code is embedded as a rose tree: the Rust implementation backs a
formula by a `Tree<Label>` arena (a contiguous node table where each node
carries a label and an ordered child list) together with a `Bitset` marking the
variable nodes.  The arena is only ever built through `add_node`, so children
always precede their parent and the structure is a finite ordered tree; the
embedding merges the label, the variable bit and the child list into one node.
Atoms (labels, typecodes) are interned 32-bit identifiers, embedded as `Nat`.
-/

set_option maxHeartbeats 1000000
set_option maxRecDepth 4096

/-- Modelled from the spec: the tree container (`crate::tree::Tree`, not part
of the sources at hand) is "a contiguous node table (indexable by `NodeId`)
where each node carries a label atom and an ordered child list; plus a bitset
marking variable nodes".  `FTree` is that data, with the node table unfolded
into an ordered labeled tree and the bitset merged into a per-node flag. -/
inductive FTree where
  | node (label : Nat) (isVar : Bool) (children : List FTree)

/-- The label stored at the root node (`self.tree[node_id]`). -/
def FTree.label : FTree → Nat
  | FTree.node l _ _ => l

/-- Whether the root node is marked as a variable (`Formula::is_variable`). -/
def FTree.isVar : FTree → Bool
  | FTree.node _ v _ => v

/-- The ordered child list of the root node (`Tree::children_iter`). -/
def FTree.children : FTree → List FTree
  | FTree.node _ _ cs => cs

/-- `Tree::has_children`. -/
def FTree.hasChildren (t : FTree) : Bool :=
  !t.children.isEmpty

/-- A parsed formula: a typecode atom plus the tree (with its root and
variable marks).  Mirrors `struct Formula`. -/
structure Formula where
  typecode : Nat
  root : FTree

/-- `Substitutions`: a map from variable labels to (boxed) formulas.  The Rust
code uses a `HashMap`; only `get` and (fresh-key) `insert` are ever applied,
so an association list is an observationally faithful model. -/
abbrev Subst := List (Nat × Formula)

/-- `HashMap::get`. -/
def slookup : Subst → Nat → Option Formula
  | [], _ => none
  | (k, f) :: rest, l => if k = l then some f else slookup rest l

/-- `HashMap::insert`; in `sub_unify` it is only reached when the key is
absent, so appending preserves the lookup function of the map. -/
def sinsert (s : Subst) (l : Nat) (f : Formula) : Subst :=
  s ++ [(l, f)]

mutual
/-- `Formula::sub_eq`: label equality at the two nodes, equal
presence/absence of children, and recursive equality of the zipped
child pairs. -/
def subEq : FTree → FTree → Bool
  | FTree.node al av acs, b =>
    decide (al = b.label) &&
    decide ((FTree.node al av acs).hasChildren = b.hasChildren) &&
    subEqList acs b.children

/-- The `children_iter(..).zip(..).all(..)` part of `sub_eq`: the zip stops at
the shorter list, so a run-off on either side yields `true`. -/
def subEqList : List FTree → List FTree → Bool
  | [], _ => true
  | _ :: _, [] => true
  | x :: xs, y :: ys => subEq x y && subEqList xs ys
end

/-- `impl PartialEq for Formula`: compares the two root subtrees only; the
typecodes are not consulted. -/
def Formula.feq (a b : Formula) : Bool :=
  subEq a.root b.root

mutual
/-- `Formula::sub_unify` with the mutable substitution map threaded through:
`a` is the concrete side (`self`), `b` the pattern side (`other`), `atc` is
`self.typecode` (used by `sub_formula` when a new substitution is stored). -/
def subUnify (atc : Nat) : FTree → FTree → Subst → Option Subst
  | FTree.node al av acs, b, s =>
    if b.isVar then
      match slookup s b.label with
      | some f => if subEq (FTree.node al av acs) f.root then some s else none
      | none => some (sinsert s b.label ⟨atc, FTree.node al av acs⟩)
    else if (FTree.node al av acs).label = b.label ∧
            (FTree.node al av acs).hasChildren = b.hasChildren then
      subUnifyList atc acs b.children s
    else
      none

/-- The `for (s_id, o_id) in zip { sub_unify(..)?; }` loop of `sub_unify`. -/
def subUnifyList (atc : Nat) : List FTree → List FTree → Subst → Option Subst
  | [], _, s => some s
  | _ :: _, [], s => some s
  | x :: xs, y :: ys, s =>
    match subUnify atc x y s with
    | some s1 => subUnifyList atc xs ys s1
    | none => none
end

/-- `Formula::unify`: starts from the two roots with an empty map. -/
def Formula.unify (a b : Formula) : Option Subst :=
  subUnify a.typecode a.root b.root []

/-- `FormulaBuilder`: the stack of already-built subformulas.  In the source
the stack holds `NodeId`s into the tree being built; here each entry is the
subtree itself. -/
structure FormulaBuilder where
  stack : List FTree

/-- `Vec::insert(index, element)`. -/
def listInsertAt {α : Type} (xs : List α) (i : Nat) (x : α) : List α :=
  xs.take i ++ x :: xs.drop i

/-- The `u8` addition `(var_count + offset)` that `reduce` performs before
anything else (formula.rs:283-284), under checked arithmetic: a sum past 255
overflows and aborts (`none`).  Under release wrapping the call aborts
slightly later instead: the wrapped sum makes the drained range's start
exceed its end on every stack long enough to satisfy
`stack.len() >= var_count + offset`. -/
def u8Add (a b : Nat) : Option Nat :=
  if a + b ≤ 255 then some (a + b) else none

/-- `FormulaBuilder::reduce`.  The initial `assert!` (a panic) is modelled as
`none`; Nat subtraction is already saturating, matching the `saturating_sub`
calls.  `var_count` and `offset` are `u8` in the source and are embedded as
unbounded `Nat`: for `varCount + offset > 255` the source aborts (see
`u8Add`) while this definition continues, so every statement about `reduce`
carries the explicit bound `varCount + offset ≤ 255`, inside which the
embedding and the source agree.  The arithmetic is left unbounded here so
that the tree-rebuilding callers (`sub_substitute`, `copy_sub_formula`,
whose `children_count` is likewise `u8`) stay total over all trees — the
idealization used for the formula domain throughout this file; every tree
the program itself builds has node arity at most 255. -/
def FormulaBuilder.reduce (fb : FormulaBuilder) (label : Nat)
    (varCount offset : Nat) (isVar : Bool) : Option FormulaBuilder :=
  if fb.stack.length < varCount + offset then
    none
  else
    let reduceStart := fb.stack.length - (varCount + offset)
    let reduceEnd := fb.stack.length - offset
    let children := (fb.stack.drop reduceStart).take (reduceEnd - reduceStart)
    let drained := fb.stack.take reduceStart ++ fb.stack.drop reduceEnd
    some ⟨listInsertAt drained reduceStart (FTree.node label isVar children)⟩

/-- `FormulaBuilder::build`: the `assert!(stack.len() == 1)` panic is `none`;
otherwise the single stack entry becomes the root and the typecode is
stored. -/
def FormulaBuilder.build (fb : FormulaBuilder) (tc : Nat) : Option Formula :=
  match fb.stack with
  | [t] => some ⟨tc, t⟩
  | _ => none

mutual
/-- `Formula::copy_sub_formula`: recursively copy each child, then reduce
them under the node's own label and variable mark. -/
def copySubFormula : FTree → FormulaBuilder → Option FormulaBuilder
  | FTree.node l v cs, fb =>
    match copyList cs fb with
    | some fb1 => fb1.reduce l cs.length 0 v
    | none => none

/-- The child loop of `copy_sub_formula` (`children_count` accumulation). -/
def copyList : List FTree → FormulaBuilder → Option FormulaBuilder
  | [], fb => some fb
  | x :: xs, fb =>
    match copySubFormula x fb with
    | some fb1 => copyList xs fb1
    | none => none
end

mutual
/-- `Formula::sub_substitute`: at a variable node whose label has a
substitution, copy the substituted formula; otherwise recurse into the
children and reduce under the original node. -/
def subSubstitute (s : Subst) : FTree → FormulaBuilder → Option FormulaBuilder
  | FTree.node l v cs, fb =>
    match v, slookup s l with
    | true, some f => copySubFormula f.root fb
    | _, _ =>
      match substList s cs fb with
      | some fb1 => fb1.reduce l cs.length 0 v
      | none => none

/-- The child loop of `sub_substitute`. -/
def substList (s : Subst) : List FTree → FormulaBuilder → Option FormulaBuilder
  | [], fb => some fb
  | x :: xs, fb =>
    match subSubstitute s x fb with
    | some fb1 => substList s xs fb1
    | none => none
end

/-- `Formula::substitute`: run `sub_substitute` on a fresh builder and build
with this formula's typecode.  The builder panics are modelled as `none`
(they are proved unreachable below). -/
def Formula.substitute (f : Formula) (s : Subst) : Option Formula :=
  match subSubstitute s f.root ⟨[]⟩ with
  | some fb => fb.build f.typecode
  | none => none

mutual
/-- The tree produced by `sub_substitute`, described directly: replace each
variable node bound in `s` by the bound formula's tree, rebuild every other
node.  Related to the builder-based code by `subSubstitute_spec`. -/
def applySubst (s : Subst) : FTree → FTree
  | FTree.node l v cs =>
    match v, slookup s l with
    | true, some f => f.root
    | _, _ => FTree.node l v (applySubstList s cs)

/-- `applySubst` mapped over a child list. -/
def applySubstList (s : Subst) : List FTree → List FTree
  | [] => []
  | x :: xs => applySubst s x :: applySubstList s xs
end

mutual
/-- The labels occurring at variable nodes of a tree. -/
def varLabels : FTree → List Nat
  | FTree.node l v cs => (if v then [l] else []) ++ varLabelsList cs

/-- `varLabels` over a child list. -/
def varLabelsList : List FTree → List Nat
  | [] => []
  | x :: xs => varLabels x ++ varLabelsList xs
end

mutual
/-- The variable labels of the pattern `b` at positions actually visited by
the unification traversal of `a` against `b`: a variable pattern node is
visited itself; elsewhere the traversal descends into the zipped common
prefix of the child lists. -/
def patVars : FTree → FTree → List Nat
  | FTree.node _ _ acs, b =>
    if b.isVar then [b.label] else patVarsList acs b.children

/-- `patVars` over zipped child lists (stopping at the shorter list, like the
`zip` in `sub_unify`). -/
def patVarsList : List FTree → List FTree → List Nat
  | [], _ => []
  | _ :: _, [] => []
  | x :: xs, y :: ys => patVars x y ++ patVarsList xs ys
end

/-- A bare labeled tree: the data `sub_eq` can observe (no variable marks, no
typecode). -/
inductive LTree where
  | node (label : Nat) (children : List LTree)

/-- The child list of an `LTree`. -/
def LTree.children : LTree → List LTree
  | LTree.node _ cs => cs

mutual
/-- Erase the variable marks of a formula tree. -/
def shape : FTree → LTree
  | FTree.node l _ cs => LTree.node l (shapeList cs)

/-- `shape` over a child list. -/
def shapeList : List FTree → List LTree
  | [] => []
  | x :: xs => shape x :: shapeList xs
end

mutual
/-- Written from the claim: recursive comparison of node labels and of the
presence/absence of children, along the zipped common prefix of the child
lists. -/
def shapeEq : LTree → LTree → Bool
  | LTree.node l cs, LTree.node l2 cs2 =>
    decide (l = l2) && decide (cs.isEmpty = cs2.isEmpty) && shapeEqList cs cs2

/-- `shapeEq` along the zipped common prefix of two child lists. -/
def shapeEqList : List LTree → List LTree → Bool
  | [], _ => true
  | _ :: _, [] => true
  | x :: xs, y :: ys => shapeEq x y && shapeEqList xs ys
end

/-!
The `Database` pass cache (`database.rs`).  Pass results are opaque values
produced by collaborator crates (`nameck`, `scopeck`, `verify`, `outline`,
`grammar`); only how each is produced from its seed and inputs is relevant, so
the results are embedded symbolically, one constructor per way the source
builds a result.  The segment set is embedded as a version number: each call
to `parse` installs a new value.
-/

/-- Symbolic pass results.  `nameUpd`, `scopeUpd` and `verifyUpd` record an
in-place `update`/`scope_check`/`verify` of a seed value (passed by `&mut`)
from the listed inputs; `outlineBuild` records `OutlineNode::default()`
mutated by `build_outline(parse)`; `grammarNew` records `Grammar::new(db)`;
`stmtParseBuild` records `StmtParse::default()` mutated by
`parse_statements(parse, name, grammar)`. -/
inductive PassVal where
  | dflt : PassVal
  | nameUpd (seed : PassVal) (segs : Nat) : PassVal
  | scopeUpd (seed : PassVal) (segs : Nat) (name : PassVal) : PassVal
  | verifyUpd (seed : PassVal) (segs : Nat) (name scope : PassVal) : PassVal
  | outlineBuild (segs : Nat) : PassVal
  | grammarNew (segs : Nat) (name scope : PassVal) : PassVal
  | stmtParseBuild (segs : Nat) (name grammar : PassVal) : PassVal
deriving DecidableEq

/-- `struct Database`: the segment set (as a version number) and the pass
slots.  Note which passes have a `prev_*` slot in the source: nameset, scopes
and verify do; outline, grammar and stmt_parse do not. -/
structure Database where
  segments : Nat
  prev_nameset : Option PassVal
  nameset : Option PassVal
  prev_scopes : Option PassVal
  scopes : Option PassVal
  prev_verify : Option PassVal
  verify : Option PassVal
  outline : Option PassVal
  grammar : Option PassVal
  stmt_parse : Option PassVal
deriving DecidableEq

/-- `Database::new`: empty segment set, every slot `None`. -/
def Database.new : Database :=
  { segments := 0, prev_nameset := none, nameset := none, prev_scopes := none,
    scopes := none, prev_verify := none, verify := none, outline := none,
    grammar := none, stmt_parse := none }

/-- `Database::parse`: replaces the segment set and sets `nameset`, `scopes`,
`verify`, `outline` and `grammar` to `None`.  The source does not touch
`stmt_parse` or any `prev_*` slot here. -/
def Database.parse (db : Database) (newSegs : Nat) : Database :=
  { db with segments := newSegs, nameset := none, scopes := none,
            verify := none, outline := none, grammar := none }

/-- `Database::name_pass`: if `nameset` is empty, take `prev_nameset` (or a
default), `update` it in place from the parse result, and store the shared
`Arc` into both `prev_nameset` and `nameset`. -/
def Database.name_pass (db : Database) : Database :=
  if db.nameset.isSome then db
  else
    let v := PassVal.nameUpd (db.prev_nameset.getD PassVal.dflt) db.segments
    { db with prev_nameset := some v, nameset := some v }

/-- `Database::scope_pass`: ensures `name_pass`, then the same two-slot update
through `prev_scopes`/`scopes` via `scope_check`. -/
def Database.scope_pass (db : Database) : Database :=
  if db.scopes.isSome then db
  else
    let db1 := db.name_pass
    let v := PassVal.scopeUpd (db1.prev_scopes.getD PassVal.dflt) db1.segments
      (db1.nameset.getD PassVal.dflt)
    { db1 with prev_scopes := some v, scopes := some v }

/-- `Database::verify_pass`: ensures `name_pass` and `scope_pass`, then the
two-slot update through `prev_verify`/`verify` via `verify::verify`. -/
def Database.verify_pass (db : Database) : Database :=
  if db.verify.isSome then db
  else
    let db1 := db.name_pass
    let db2 := db1.scope_pass
    let v := PassVal.verifyUpd (db2.prev_verify.getD PassVal.dflt) db2.segments
      (db2.nameset.getD PassVal.dflt) (db2.scopes.getD PassVal.dflt)
    { db2 with prev_verify := some v, verify := some v }

/-- `Database::outline_pass`: no dependencies; builds a default-constructed
`OutlineNode` from the parse result and stores it into `outline` only. -/
def Database.outline_pass (db : Database) : Database :=
  if db.outline.isSome then db
  else { db with outline := some (PassVal.outlineBuild db.segments) }

/-- `Database::grammar_pass`: ensures `name_pass` and `scope_pass`, then
stores `Grammar::new(self)` into `grammar` only (no seed, no `prev` slot). -/
def Database.grammar_pass (db : Database) : Database :=
  if db.grammar.isSome then db
  else
    let db1 := db.name_pass
    let db2 := db1.scope_pass
    { db2 with grammar := some (PassVal.grammarNew db2.segments
        (db2.nameset.getD PassVal.dflt) (db2.scopes.getD PassVal.dflt)) }

/-- `Database::stmt_parse_pass`: ensures `name_pass`, `scope_pass` and
`grammar_pass`, then builds a default-constructed `StmtParse` via
`parse_statements` and stores it into `stmt_parse` only. -/
def Database.stmt_parse_pass (db : Database) : Database :=
  if db.stmt_parse.isSome then db
  else
    let db1 := db.name_pass
    let db2 := db1.scope_pass
    let db3 := db2.grammar_pass
    { db3 with stmt_parse := some (PassVal.stmtParseBuild db3.segments
        (db3.nameset.getD PassVal.dflt) (db3.grammar.getD PassVal.dflt)) }

/-!
The executor and promise (`database.rs`).  With `concurrency <= 1` (the
`jobs <= 1` configuration) `queue_work` runs the submitted closure
synchronously on the submitter, so the whole `exec`/`wait` flow is sequential
code and is embedded directly.  A closure that may terminate abnormally is
embedded as a value of `Except E R` (`error` = unwinding with payload). -/

/-- The outcome of running a submitted task to completion: a normal return
value or an abnormal termination (unwind) carrying a payload. -/
inductive TaskRun (E R : Type) where
  | ok (value : R)
  | panicked (payload : E)

/-- `panic::catch_unwind`: run the task, converting an abnormal termination
into an `Err` value instead of propagating it. -/
def catchUnwind (E R : Type) (t : TaskRun E R) : Except E R :=
  match t with
  | TaskRun.ok v => Except.ok v
  | TaskRun.panicked e => Except.error e

/-- The `Mutex<Option<Result>>` cell shared between the worker closure and
the promise (`parts.0` in `Executor::exec`). -/
structure PromiseCell (E R : Type) where
  slot : Option (Except E R)

/-- The closure queued by `exec`: stores `Some(catch_unwind(task))` into the
cell (and notifies the condvar).  Its own execution terminates normally for
every task outcome, because the task runs inside `catch_unwind`. -/
def workerClosure (E R : Type) (t : TaskRun E R) (c : PromiseCell E R) :
    PromiseCell E R :=
  { c with slot := some (catchUnwind E R t) }

/-- `Executor::exec` on the synchronous path (`concurrency <= 1`):
`queue_work` runs the worker closure immediately on the submitter, then
`exec` returns the promise over the cell.  The outer `Except` layer is the
submitter's own control flow: `Except.ok` means submission itself returned
normally. -/
def execSync (E R : Type) (t : TaskRun E R) : Except E (PromiseCell E R) :=
  Except.ok (workerClosure E R t ⟨none⟩)

/-- `Result::unwrap` at `wait` time: returns the `Ok` value normally and
re-raises a stored `Err` as an abnormal termination. -/
def resultUnwrap (E R : Type) (r : Except E R) : Except E R :=
  match r with
  | Except.ok v => Except.ok v
  | Except.error e => Except.error e

/-- `Promise::wait` for an `exec` promise: block while the slot is `None`
(`none` here means the wait has not completed), then take the stored result
and unwrap it. -/
def promiseWait (E R : Type) (c : PromiseCell E R) : Option (Except E R) :=
  match c.slot with
  | some r => some (resultUnwrap E R r)
  | none => none

/-- Whatever a substitution map binds stays bound (to the same formula) in
any map the unification later extends it to. -/
def SubstExt (s s2 : Subst) : Prop :=
  ∀ l f, slookup s l = some f → slookup s2 l = some f

/-- Every formula stored in the substitution map carries the typecode `atc`. -/
def AllTc (atc : Nat) (s : Subst) : Prop :=
  ∀ l f, slookup s l = some f → f.typecode = atc

/-!  Helper lemmas. -/

/-- Member-wise induction over the rose trees. -/
theorem FTree.memInd (P : FTree → Prop)
    (h : ∀ l v cs, (∀ x, x ∈ cs → P x) → P (FTree.node l v cs)) :
    ∀ t, P t
  | FTree.node l v cs => h l v cs fun x hx =>
      have : sizeOf x < sizeOf (FTree.node l v cs) := by
        have hlt := List.sizeOf_lt_of_mem hx
        simp only [FTree.node.sizeOf_spec]
        omega
      FTree.memInd P h x
termination_by t => sizeOf t

theorem take_append_len {α : Type} (xs ys : List α) :
    (xs ++ ys).take xs.length = xs := by
  induction xs with
  | nil => simp
  | cons a as ih => simp [ih]

theorem drop_append_len {α : Type} (xs ys : List α) :
    (xs ++ ys).drop xs.length = ys := by
  induction xs with
  | nil => simp
  | cons a as ih => simp [ih]

theorem drop_append_len_add {α : Type} (xs ys : List α) (k : Nat) :
    (xs ++ ys).drop (xs.length + k) = ys.drop k := by
  induction xs with
  | nil => simp
  | cons a as ih => simp [Nat.succ_add, ih]

theorem take_append_of_len {α : Type} (xs ys : List α) (n : Nat)
    (h : xs.length = n) : (xs ++ ys).take n = xs := by
  subst h; exact take_append_len xs ys

theorem drop_append_of_len {α : Type} (xs ys : List α) (n : Nat)
    (h : xs.length = n) : (xs ++ ys).drop n = ys := by
  subst h; exact drop_append_len xs ys

/-- `reduce` on a stack ending in the `ds` to be reduced, with `offset = 0`:
pops exactly `ds` as children of the new node and pushes the node. -/
theorem reduce_append (base ds : List FTree) (l : Nat) (v : Bool) :
    FormulaBuilder.reduce ⟨base ++ ds⟩ l ds.length 0 v =
      some ⟨base ++ [FTree.node l v ds]⟩ := by
  have hlen : (base ++ ds).length = base.length + ds.length := by simp
  have hnotlt : ¬ (base ++ ds).length < ds.length + 0 := by omega
  have hrs : (base ++ ds).length - (ds.length + 0) = base.length := by omega
  have hre : (base ++ ds).length - 0 = base.length + ds.length := by omega
  simp only [FormulaBuilder.reduce, hrs, hre, if_neg hnotlt]
  have hdrop : (base ++ ds).drop base.length = ds := drop_append_len base ds
  have htake : (base ++ ds).take base.length = base := take_append_len base ds
  have hdiff : base.length + ds.length - base.length = ds.length := by omega
  have hdropall : (base ++ ds).drop (base.length + ds.length) = [] := by
    simp [drop_append_len_add base ds ds.length]
  simp only [hdrop, htake, hdiff, hdropall, List.take_length, List.append_nil]
  simp [listInsertAt, take_append_of_len, drop_append_of_len,
    List.take_of_length_le (Nat.le_refl base.length)]

theorem applySubstList_eq_map (s : Subst) (cs : List FTree) :
    applySubstList s cs = cs.map (applySubst s) := by
  induction cs with
  | nil => simp [applySubstList]
  | cons x xs ih => simp [applySubstList, ih]

theorem applySubstList_length (s : Subst) (cs : List FTree) :
    (applySubstList s cs).length = cs.length := by
  simp [applySubstList_eq_map]

theorem applySubstList_isEmpty (s : Subst) (cs : List FTree) :
    (applySubstList s cs).isEmpty = cs.isEmpty := by
  cases cs <;> simp [applySubstList]

/-- `copy_sub_formula` pushes exactly one item: the copied subtree itself. -/
theorem copySubFormula_spec :
    ∀ t : FTree, ∀ fb : FormulaBuilder,
      copySubFormula t fb = some ⟨fb.stack ++ [t]⟩ := by
  refine FTree.memInd _ ?_
  intro l v cs ih fb
  have hlist : ∀ (pre : List FTree) (ds : List FTree),
      (∀ x, x ∈ ds → ∀ fb1 : FormulaBuilder,
        copySubFormula x fb1 = some ⟨fb1.stack ++ [x]⟩) →
      copyList ds ⟨pre⟩ = some ⟨pre ++ ds⟩ := by
    intro pre ds
    induction ds generalizing pre with
    | nil => intro _; simp [copyList]
    | cons x xs ihl =>
      intro hmem
      have hx := hmem x (by simp) ⟨pre⟩
      simp only [copyList, hx]
      have := ihl (pre ++ [x]) (fun y hy => hmem y (by simp [hy]))
      simpa using this
  have hc := hlist fb.stack cs ih
  simp only [copySubFormula, hc, reduce_append]

/-- `sub_substitute` pushes exactly one item: `applySubst` of the subtree. -/
theorem subSubstitute_spec (s : Subst) :
    ∀ t : FTree, ∀ fb : FormulaBuilder,
      subSubstitute s t fb = some ⟨fb.stack ++ [applySubst s t]⟩ := by
  refine FTree.memInd _ ?_
  intro l v cs ih fb
  have hlist : ∀ (pre : List FTree) (ds : List FTree),
      (∀ x, x ∈ ds → ∀ fb1 : FormulaBuilder,
        subSubstitute s x fb1 = some ⟨fb1.stack ++ [applySubst s x]⟩) →
      substList s ds ⟨pre⟩ = some ⟨pre ++ applySubstList s ds⟩ := by
    intro pre ds
    induction ds generalizing pre with
    | nil => intro _; simp [substList, applySubstList]
    | cons x xs ihl =>
      intro hmem
      have hx := hmem x (by simp) ⟨pre⟩
      simp only [substList, hx]
      have := ihl (pre ++ [applySubst s x]) (fun y hy => hmem y (by simp [hy]))
      simp only [this, applySubstList]
      simp
  cases hv : v with
  | true =>
    cases hsl : slookup s l with
    | some f =>
      simp only [subSubstitute, hsl, copySubFormula_spec f.root fb,
        applySubst]
    | none =>
      have hc := hlist fb.stack cs ih
      simp only [subSubstitute, hsl, hc, applySubst]
      have hr := reduce_append fb.stack (applySubstList s cs) l true
      rw [applySubstList_length] at hr
      simp [hr]
  | false =>
    have hc := hlist fb.stack cs ih
    simp only [subSubstitute, hc, applySubst]
    have hr := reduce_append fb.stack (applySubstList s cs) l false
    rw [applySubstList_length] at hr
    simp [hr]

/-- `Formula::substitute` never hits the builder panics and produces the
directly-described substituted tree under the original typecode. -/
theorem substitute_eq (f : Formula) (s : Subst) :
    f.substitute s = some ⟨f.typecode, applySubst s f.root⟩ := by
  simp only [Formula.substitute, subSubstitute_spec s f.root ⟨[]⟩]
  simp [FormulaBuilder.build]

theorem subEq_refl : ∀ t : FTree, subEq t t = true := by
  refine FTree.memInd _ ?_
  intro l v cs ih
  have hlist : ∀ ds : List FTree, (∀ x, x ∈ ds → subEq x x = true) →
      subEqList ds ds = true := by
    intro ds
    induction ds with
    | nil => intro _; simp [subEqList]
    | cons x xs ihl =>
      intro hmem
      simp only [subEqList, hmem x (by simp),
        ihl (fun y hy => hmem y (by simp [hy])), Bool.and_self]
  simp [subEq, FTree.label, FTree.children, hlist cs ih]

theorem subEq_symm : ∀ t u : FTree, subEq t u = subEq u t := by
  refine FTree.memInd (fun t => ∀ u, subEq t u = subEq u t) ?_
  intro al av acs ih u
  cases u with
  | node bl bv bcs =>
    have hlist : ∀ (xs : List FTree),
        (∀ x, x ∈ xs → ∀ u, subEq x u = subEq u x) →
        ∀ ys, subEqList xs ys = subEqList ys xs := by
      intro xs
      induction xs with
      | nil => intro _ ys; cases ys <;> simp [subEqList]
      | cons x xs ihl =>
        intro hmem ys
        cases ys with
        | nil => simp [subEqList]
        | cons y ys =>
          simp only [subEqList, hmem x (by simp) y,
            ihl (fun z hz => hmem z (by simp [hz])) ys]
    have h1 : decide (al = (FTree.node bl bv bcs).label) =
        decide (bl = (FTree.node al av acs).label) := by
      simp only [FTree.label]
      exact decide_eq_decide.mpr eq_comm
    have h2 : decide ((FTree.node al av acs).hasChildren =
          (FTree.node bl bv bcs).hasChildren) =
        decide ((FTree.node bl bv bcs).hasChildren =
          (FTree.node al av acs).hasChildren) :=
      decide_eq_decide.mpr eq_comm
    simp only [subEq, FTree.children, h1, h2, hlist acs ih bcs]

/-- Looking up in an extended association list still finds bindings of the
prefix first. -/
theorem slookup_append_some (s t : Subst) (l : Nat) (f : Formula)
    (h : slookup s l = some f) : slookup (s ++ t) l = some f := by
  induction s with
  | nil => simp [slookup] at h
  | cons p rest ih =>
    by_cases hk : p.1 = l
    · simp_all [slookup]
    · simp only [slookup] at h ⊢
      rw [if_neg hk] at h ⊢
      exact ih h

theorem slookup_append_none (s t : Subst) (l : Nat)
    (h : slookup s l = none) : slookup (s ++ t) l = slookup t l := by
  induction s with
  | nil => simp
  | cons p rest ih =>
    by_cases hk : p.1 = l
    · simp_all [slookup]
    · simp only [slookup] at h ⊢
      rw [if_neg hk] at h ⊢
      exact ih h

theorem slookup_sinsert_self (s : Subst) (l : Nat) (f : Formula)
    (h : slookup s l = none) : slookup (sinsert s l f) l = some f := by
  rw [sinsert, slookup_append_none s _ l h]
  simp [slookup]

theorem SubstExt.refl (s : Subst) : SubstExt s s := fun _ _ h => h

theorem SubstExt.trans {s1 s2 s3 : Subst} (h1 : SubstExt s1 s2) (h2 : SubstExt s2 s3) :
    SubstExt s1 s3 := fun l f h => h2 l f (h1 l f h)

theorem substExt_sinsert (s : Subst) (l : Nat) (f : Formula) :
    SubstExt s (sinsert s l f) := fun l2 f2 h => slookup_append_some s _ l2 f2 h

/-- `sub_unify` only ever adds bindings: the incoming map extends into the
outgoing one. -/
theorem subUnify_mono (atc : Nat) :
    ∀ a b : FTree, ∀ s s2 : Subst,
      subUnify atc a b s = some s2 → SubstExt s s2 := by
  refine FTree.memInd
    (fun a => ∀ b s s2, subUnify atc a b s = some s2 → SubstExt s s2) ?_
  have hlist : ∀ (xs : List FTree),
      (∀ x, x ∈ xs → ∀ b s s2, subUnify atc x b s = some s2 → SubstExt s s2) →
      ∀ ys s s2, subUnifyList atc xs ys s = some s2 → SubstExt s s2 := by
    intro xs
    induction xs with
    | nil =>
      intro _ ys s s2 h
      cases ys <;> (simp only [subUnifyList, Option.some.injEq] at h; subst h; exact SubstExt.refl _)
    | cons x xs ihl =>
      intro hmem ys s s2 h
      cases ys with
      | nil =>
        simp only [subUnifyList, Option.some.injEq] at h
        subst h; exact SubstExt.refl _
      | cons y ys =>
        simp only [subUnifyList] at h
        split at h
        · rename_i s1 hu
          exact SubstExt.trans (hmem x (by simp) y s s1 hu)
            (ihl (fun z hz => hmem z (by simp [hz])) ys s1 s2 h)
        · cases h
  intro al av acs ih b s s2 h
  by_cases hv : b.isVar = true
  · rw [subUnify, if_pos hv] at h
    cases hsl : slookup s b.label with
    | some f =>
      simp only [hsl] at h
      split at h
      · cases h; exact SubstExt.refl s
      · cases h
    | none =>
      simp only [hsl] at h
      cases h
      exact substExt_sinsert s b.label _
  · rw [subUnify, if_neg hv] at h
    by_cases hc : (FTree.node al av acs).label = b.label ∧
        (FTree.node al av acs).hasChildren = b.hasChildren
    · rw [if_pos hc] at h
      exact hlist acs ih b.children s s2 h
    · rw [if_neg hc] at h; cases h

/-- The zipped-prefix loop of `sub_unify` only ever adds bindings. -/
theorem subUnifyList_mono (atc : Nat) :
    ∀ (xs ys : List FTree) (s s2 : Subst),
      subUnifyList atc xs ys s = some s2 → SubstExt s s2 := by
  intro xs
  induction xs with
  | nil =>
    intro ys s s2 h
    cases ys <;> (simp only [subUnifyList, Option.some.injEq] at h; subst h; exact SubstExt.refl _)
  | cons x xs ihl =>
    intro ys s s2 h
    cases ys with
    | nil =>
      simp only [subUnifyList, Option.some.injEq] at h
      subst h; exact SubstExt.refl _
    | cons y ys =>
      simp only [subUnifyList] at h
      split at h
      · rename_i s1 hu
        exact SubstExt.trans (subUnify_mono atc x y s s1 hu) (ihl ys s1 s2 h)
      · cases h

@[simp] theorem FTree.label_node (l : Nat) (v : Bool) (cs : List FTree) :
    (FTree.node l v cs).label = l := rfl

@[simp] theorem FTree.isVar_node (l : Nat) (v : Bool) (cs : List FTree) :
    (FTree.node l v cs).isVar = v := rfl

@[simp] theorem FTree.children_node (l : Nat) (v : Bool) (cs : List FTree) :
    (FTree.node l v cs).children = cs := rfl

theorem applySubst_var_bound (sF : Subst) (l : Nat) (cs : List FTree)
    (f : Formula) (h : slookup sF l = some f) :
    applySubst sF (FTree.node l true cs) = f.root := by
  simp [applySubst, h]

theorem applySubst_var_unbound (sF : Subst) (l : Nat) (cs : List FTree)
    (h : slookup sF l = none) :
    applySubst sF (FTree.node l true cs) =
      FTree.node l true (applySubstList sF cs) := by
  simp [applySubst, h]

theorem applySubst_nonvar (sF : Subst) (l : Nat) (cs : List FTree) :
    applySubst sF (FTree.node l false cs) =
      FTree.node l false (applySubstList sF cs) := by
  cases h : slookup sF l <;> simp [applySubst, h]

/-- Core soundness of `sub_unify`: a successful step makes the pattern, with
any later-final substitution map applied, `sub_eq`-equal to the concrete
side. -/
theorem subUnify_sound (atc : Nat) (sF : Subst) :
    ∀ a b : FTree, ∀ s s2 : Subst,
      subUnify atc a b s = some s2 → SubstExt s2 sF →
      subEq (applySubst sF b) a = true := by
  have hlist : ∀ (xs : List FTree),
      (∀ x, x ∈ xs → ∀ b s s2, subUnify atc x b s = some s2 →
        SubstExt s2 sF → subEq (applySubst sF b) x = true) →
      ∀ ys s s2, subUnifyList atc xs ys s = some s2 → SubstExt s2 sF →
        subEqList (applySubstList sF ys) xs = true := by
    intro xs
    induction xs with
    | nil =>
      intro _ ys s s2 _ _
      cases ys <;> simp [applySubstList, subEqList]
    | cons x xs ihl =>
      intro hmem ys s s2 h hext
      cases ys with
      | nil => simp [applySubstList, subEqList]
      | cons y ys =>
        simp only [subUnifyList] at h
        split at h
        · rename_i s1 hu
          have hext1 : SubstExt s1 sF :=
            SubstExt.trans (subUnifyList_mono atc xs ys s1 s2 h) hext
          have hhead := hmem x (by simp) y s s1 hu hext1
          have htail := ihl (fun z hz => hmem z (by simp [hz])) ys s1 s2 h hext
          simp [applySubstList, subEqList, hhead, htail]
        · cases h
  refine FTree.memInd (fun a => ∀ b s s2, subUnify atc a b s = some s2 →
    SubstExt s2 sF → subEq (applySubst sF b) a = true) ?_
  intro al av acs ih b s s2 h hext
  cases b with
  | node bl bv bcs =>
    cases bv with
    | true =>
      rw [subUnify] at h
      rw [if_pos (by simp)] at h
      cases hsl : slookup s (FTree.node bl true bcs).label with
      | some f =>
        simp only [hsl] at h
        split at h
        · rename_i he
          cases h
          have hlk : slookup sF bl = some f := hext bl f hsl
          rw [applySubst_var_bound sF bl bcs f hlk]
          rw [subEq_symm]
          exact he
        · cases h
      | none =>
        simp only [hsl] at h
        cases h
        have hlk : slookup sF bl = some ⟨atc, FTree.node al av acs⟩ :=
          hext bl _ (slookup_sinsert_self s bl _ hsl)
        rw [applySubst_var_bound sF bl bcs _ hlk]
        exact subEq_refl _
    | false =>
      rw [subUnify] at h
      rw [if_neg (by simp)] at h
      by_cases hc : (FTree.node al av acs).label =
            (FTree.node bl false bcs).label ∧
          (FTree.node al av acs).hasChildren =
            (FTree.node bl false bcs).hasChildren
      · rw [if_pos hc] at h
        simp only [FTree.children_node] at h
        obtain ⟨hcl, hcc⟩ := hc
        simp only [FTree.label_node] at hcl
        simp only [FTree.hasChildren, FTree.children_node] at hcc
        rw [applySubst_nonvar]
        have hzip := hlist acs ih bcs s s2 h hext
        have hemp : (applySubstList sF bcs).isEmpty = acs.isEmpty := by
          rw [applySubstList_isEmpty]
          cases hbe : bcs.isEmpty <;> cases hae : acs.isEmpty <;>
            simp [hbe, hae] at hcc ⊢
        simp only [subEq, FTree.label_node, FTree.children_node,
          FTree.hasChildren, hzip, Bool.and_true]
        simp [hcl, hemp]
      · rw [if_neg hc] at h
        cases h

/-- C2 assembled at the level of `Formula` values. -/
theorem unify_substitute_core (a b : Formula) (s : Subst)
    (h : a.unify b = some s) :
    b.substitute s = some ⟨b.typecode, applySubst s b.root⟩ ∧
      subEq (applySubst s b.root) a.root = true := by
  have hu : subUnify a.typecode a.root b.root [] = some s := h
  exact ⟨substitute_eq b s,
    subUnify_sound a.typecode s a.root b.root [] s hu (SubstExt.refl s)⟩

theorem SubstExt.isSome {s1 s2 : Subst} (h : SubstExt s1 s2) (l : Nat)
    (hs : (slookup s1 l).isSome = true) : (slookup s2 l).isSome = true := by
  obtain ⟨f, hf⟩ := Option.isSome_iff_exists.mp hs
  rw [h l f hf]
  rfl

/-- Every pattern variable at a position the unification traversal visits is
bound in the resulting substitution map. -/
theorem subUnify_binds_patVars (atc : Nat) :
    ∀ a b : FTree, ∀ s s2 : Subst,
      subUnify atc a b s = some s2 →
      ∀ l, l ∈ patVars a b → (slookup s2 l).isSome = true := by
  have hlist : ∀ (xs : List FTree),
      (∀ x, x ∈ xs → ∀ b s s2, subUnify atc x b s = some s2 →
        ∀ l, l ∈ patVars x b → (slookup s2 l).isSome = true) →
      ∀ ys s s2, subUnifyList atc xs ys s = some s2 →
        ∀ l, l ∈ patVarsList xs ys → (slookup s2 l).isSome = true := by
    intro xs
    induction xs with
    | nil =>
      intro _ ys s s2 _ l hl
      simp [patVarsList] at hl
    | cons x xs ihl =>
      intro hmem ys s s2 h l hl
      cases ys with
      | nil => simp [patVarsList] at hl
      | cons y ys =>
        simp only [patVarsList, List.mem_append] at hl
        simp only [subUnifyList] at h
        split at h
        · rename_i s1 hu
          cases hl with
          | inl hl =>
            exact SubstExt.isSome (subUnifyList_mono atc xs ys s1 s2 h) l
              (hmem x (by simp) y s s1 hu l hl)
          | inr hl =>
            exact ihl (fun z hz => hmem z (by simp [hz])) ys s1 s2 h l hl
        · cases h
  refine FTree.memInd (fun a => ∀ b s s2, subUnify atc a b s = some s2 →
    ∀ l, l ∈ patVars a b → (slookup s2 l).isSome = true) ?_
  intro al av acs ih b s s2 h l hl
  cases b with
  | node bl bv bcs =>
    cases bv with
    | true =>
      rw [patVars, if_pos (by simp)] at hl
      simp only [FTree.label_node, List.mem_singleton] at hl
      rw [hl]
      rw [subUnify] at h
      rw [if_pos (by simp)] at h
      cases hsl : slookup s (FTree.node bl true bcs).label with
      | some f =>
        simp only [hsl] at h
        split at h
        · cases h
          simp only [FTree.label_node] at hsl
          simp [hsl]
        · cases h
      | none =>
        simp only [hsl] at h
        cases h
        simp only [FTree.label_node] at hsl
        simp [slookup_sinsert_self s bl _ hsl]
    | false =>
      rw [patVars, if_neg (by simp)] at hl
      simp only [FTree.children_node] at hl
      rw [subUnify] at h
      rw [if_neg (by simp)] at h
      by_cases hc : (FTree.node al av acs).label =
            (FTree.node bl false bcs).label ∧
          (FTree.node al av acs).hasChildren =
            (FTree.node bl false bcs).hasChildren
      · rw [if_pos hc] at h
        simp only [FTree.children_node] at h
        exact hlist acs ih bcs s s2 h l hl
      · rw [if_neg hc] at h
        cases h

theorem varLabelsList_of_child (x : FTree) (ds : List FTree) (l : Nat)
    (hx : x ∈ ds) (hl : l ∈ varLabels x) : l ∈ varLabelsList ds := by
  induction ds with
  | nil => cases hx
  | cons d ds ih =>
    simp only [varLabelsList, List.mem_append]
    rcases List.mem_cons.mp hx with h1 | h1
    · subst h1; exact Or.inl hl
    · exact Or.inr (ih h1)

/-- A substitution whose keys avoid all variable labels of a tree leaves the
tree unchanged. -/
theorem applySubst_id (s : Subst) :
    ∀ t : FTree, (∀ l, l ∈ varLabels t → slookup s l = none) →
      applySubst s t = t := by
  have hlist : ∀ (ds : List FTree),
      (∀ x, x ∈ ds → (∀ l, l ∈ varLabels x → slookup s l = none) →
        applySubst s x = x) →
      (∀ l, l ∈ varLabelsList ds → slookup s l = none) →
      applySubstList s ds = ds := by
    intro ds
    induction ds with
    | nil => intro _ _; simp [applySubstList]
    | cons x xs ihl =>
      intro hmem hnone
      have hx := hmem x (by simp) (fun l hl =>
        hnone l (varLabelsList_of_child x (x :: xs) l (by simp) hl))
      have hxs := ihl (fun z hz => hmem z (by simp [hz]))
        (fun l hl => hnone l (by simp [varLabelsList, List.mem_append, hl]))
      simp [applySubstList, hx, hxs]
  refine FTree.memInd (fun t => (∀ l, l ∈ varLabels t → slookup s l = none) →
    applySubst s t = t) ?_
  intro l v cs ih hnone
  have hcs : applySubstList s cs = cs :=
    hlist cs ih (fun l2 hl2 => hnone l2 (by simp [varLabels, hl2]))
  cases v with
  | true =>
    have hl : slookup s l = none := hnone l (by simp [varLabels])
    rw [applySubst_var_unbound s l cs hl, hcs]
  | false =>
    rw [applySubst_nonvar, hcs]

theorem slookup_append_singleton (s : Subst) (l l2 : Nat) (f0 f : Formula)
    (h : slookup (s ++ [(l, f0)]) l2 = some f) :
    slookup s l2 = some f ∨ f = f0 := by
  induction s with
  | nil =>
    simp only [List.nil_append, slookup] at h
    by_cases hk : l = l2
    · rw [if_pos hk] at h
      right
      cases h
      rfl
    · rw [if_neg hk] at h
      simp [slookup] at h
  | cons p rest ih =>
    by_cases hk : p.1 = l2
    · simp_all [slookup]
    · simp only [List.cons_append, slookup] at h ⊢
      rw [if_neg hk] at h ⊢
      exact ih h

theorem allTc_sinsert {atc : Nat} {s : Subst} (h : AllTc atc s) (l : Nat)
    (t : FTree) : AllTc atc (sinsert s l ⟨atc, t⟩) := by
  intro l2 f hf
  rcases slookup_append_singleton s l l2 ⟨atc, t⟩ f hf with h1 | h1
  · exact h l2 f h1
  · rw [h1]

/-- Unification only ever stores formulas carrying the typecode of the
concrete side. -/
theorem subUnify_allTc (atc : Nat) :
    ∀ a b : FTree, ∀ s s2 : Subst,
      subUnify atc a b s = some s2 → AllTc atc s → AllTc atc s2 := by
  have hlist : ∀ (xs : List FTree),
      (∀ x, x ∈ xs → ∀ b s s2, subUnify atc x b s = some s2 →
        AllTc atc s → AllTc atc s2) →
      ∀ ys s s2, subUnifyList atc xs ys s = some s2 →
        AllTc atc s → AllTc atc s2 := by
    intro xs
    induction xs with
    | nil =>
      intro _ ys s s2 h ha
      cases ys <;> (simp only [subUnifyList, Option.some.injEq] at h; subst h; exact ha)
    | cons x xs ihl =>
      intro hmem ys s s2 h ha
      cases ys with
      | nil =>
        simp only [subUnifyList, Option.some.injEq] at h
        subst h; exact ha
      | cons y ys =>
        simp only [subUnifyList] at h
        split at h
        · rename_i s1 hu
          exact ihl (fun z hz => hmem z (by simp [hz])) ys s1 s2 h
            (hmem x (by simp) y s s1 hu ha)
        · cases h
  refine FTree.memInd (fun a => ∀ b s s2, subUnify atc a b s = some s2 →
    AllTc atc s → AllTc atc s2) ?_
  intro al av acs ih b s s2 h ha
  by_cases hv : b.isVar = true
  · rw [subUnify, if_pos hv] at h
    cases hsl : slookup s b.label with
    | some f =>
      simp only [hsl] at h
      split at h
      · cases h; exact ha
      · cases h
    | none =>
      simp only [hsl] at h
      cases h
      exact allTc_sinsert ha b.label _
  · rw [subUnify, if_neg hv] at h
    by_cases hc : (FTree.node al av acs).label = b.label ∧
        (FTree.node al av acs).hasChildren = b.hasChildren
    · rw [if_pos hc] at h
      exact hlist acs ih b.children s s2 h ha
    · rw [if_neg hc] at h
      cases h

theorem shapeList_isEmpty (cs : List FTree) :
    (shapeList cs).isEmpty = cs.isEmpty := by
  cases cs <;> simp [shapeList]

/-- `sub_eq` observes exactly the variable-mark-erased shape of the two
trees. -/
theorem subEq_shape : ∀ t u : FTree, subEq t u = shapeEq (shape t) (shape u) := by
  have hlist : ∀ (xs : List FTree),
      (∀ x, x ∈ xs → ∀ u, subEq x u = shapeEq (shape x) (shape u)) →
      ∀ ys, subEqList xs ys = shapeEqList (shapeList xs) (shapeList ys) := by
    intro xs
    induction xs with
    | nil =>
      intro _ ys
      cases ys <;> simp [subEqList, shapeList, shapeEqList]
    | cons x xs ihl =>
      intro hmem ys
      cases ys with
      | nil => simp [subEqList, shapeList, shapeEqList]
      | cons y ys =>
        simp only [subEqList, shapeList, shapeEqList]
        rw [hmem x (by simp) y, ihl (fun z hz => hmem z (by simp [hz])) ys]
  refine FTree.memInd (fun t => ∀ u, subEq t u = shapeEq (shape t) (shape u)) ?_
  intro al av acs ih u
  cases u with
  | node bl bv bcs =>
    have hemp : ((FTree.node al av acs).hasChildren =
          (FTree.node bl bv bcs).hasChildren) ↔
        ((shapeList acs).isEmpty = (shapeList bcs).isEmpty) := by
      simp only [FTree.hasChildren, FTree.children_node, shapeList_isEmpty]
      cases acs.isEmpty <;> cases bcs.isEmpty <;> simp
    simp only [subEq, shape, shapeEq, FTree.label_node, FTree.children_node]
    rw [hlist acs ih bcs, decide_eq_decide.mpr hemp]

/-!  Claim theorems. -/

/-- C1 (code evaluated at the failing input): after `stmt_parse_pass` has
filled its slot, a subsequent `parse` clears the `nameset`, `scopes`,
`verify`, `outline` and `grammar` current slots and preserves the `prev_*`
slots, but leaves `stmt_parse` holding the result computed for the old
segments (version 1); the next `stmt_parse_pass` request then returns
without recomputing anything.  The claim (and `parse`'s own documentation,
"All analysis passes will be invalidated") requires the `stmt_parse` slot to
be emptied as well. -/
theorem c1_parse_keeps_stmt_parse_slot :
    (((Database.new.parse 1).stmt_parse_pass.parse 2).nameset = none ∧
     ((Database.new.parse 1).stmt_parse_pass.parse 2).scopes = none ∧
     ((Database.new.parse 1).stmt_parse_pass.parse 2).verify = none ∧
     ((Database.new.parse 1).stmt_parse_pass.parse 2).outline = none ∧
     ((Database.new.parse 1).stmt_parse_pass.parse 2).grammar = none) ∧
    (((Database.new.parse 1).stmt_parse_pass.parse 2).prev_nameset =
       (Database.new.parse 1).stmt_parse_pass.prev_nameset ∧
     ((Database.new.parse 1).stmt_parse_pass.parse 2).prev_scopes =
       (Database.new.parse 1).stmt_parse_pass.prev_scopes ∧
     ((Database.new.parse 1).stmt_parse_pass.parse 2).prev_verify =
       (Database.new.parse 1).stmt_parse_pass.prev_verify) ∧
    ((Database.new.parse 1).stmt_parse_pass.parse 2).stmt_parse =
      some (PassVal.stmtParseBuild 1 (PassVal.nameUpd PassVal.dflt 1)
        (PassVal.grammarNew 1 (PassVal.nameUpd PassVal.dflt 1)
          (PassVal.scopeUpd PassVal.dflt 1 (PassVal.nameUpd PassVal.dflt 1)))) ∧
    ((Database.new.parse 1).stmt_parse_pass.parse 2).stmt_parse_pass =
      (Database.new.parse 1).stmt_parse_pass.parse 2 := by
  decide

/-- C2: if `a.unify(b)` returns `Some(subs)`, then `b.substitute(subs)`
succeeds and the result is `==`-equal (`PartialEq for Formula`) to `a`. -/
theorem c2_unify_substitute_sound (a b : Formula) (s : Subst)
    (h : a.unify b = some s) :
    ∃ f2, b.substitute s = some f2 ∧ f2.feq a = true := by
  obtain ⟨hsub, heq⟩ := unify_substitute_core a b s h
  exact ⟨⟨b.typecode, applySubst s b.root⟩, hsub, heq⟩

/-- C2 witness: a pattern with the repeated variable 7, unified against a
concrete formula, substitutes back to an `==`-equal formula. -/
theorem c2_unify_substitute_sound_witness :
    ∃ f2,
      Formula.substitute
        ⟨0, FTree.node 1 false [FTree.node 7 true [], FTree.node 7 true []]⟩
        [(7, ⟨0, FTree.node 5 false []⟩)] = some f2 ∧
      f2.feq ⟨0, FTree.node 1 false [FTree.node 5 false [],
        FTree.node 5 false []]⟩ = true :=
  c2_unify_substitute_sound
    ⟨0, FTree.node 1 false [FTree.node 5 false [], FTree.node 5 false []]⟩
    ⟨0, FTree.node 1 false [FTree.node 7 true [], FTree.node 7 true []]⟩
    [(7, ⟨0, FTree.node 5 false []⟩)] rfl

/-- C3 counterexample: a `stmt_parse` request that finds its current slot
empty stores its result into the `stmt_parse` slot and into no other slot of
the database — in particular into no `previous` slot (the struct has no
`prev_stmt_parse` at all) — refuting "stores one shared copy of the result
into both the current and the previous slot" for this pass. -/
theorem c3_single_slot_counterexample :
    ((Database.new.parse 1).stmt_parse_pass.stmt_parse.isSome = true) ∧
    (Database.new.parse 1).stmt_parse_pass.prev_nameset ≠
      (Database.new.parse 1).stmt_parse_pass.stmt_parse ∧
    (Database.new.parse 1).stmt_parse_pass.nameset ≠
      (Database.new.parse 1).stmt_parse_pass.stmt_parse ∧
    (Database.new.parse 1).stmt_parse_pass.prev_scopes ≠
      (Database.new.parse 1).stmt_parse_pass.stmt_parse ∧
    (Database.new.parse 1).stmt_parse_pass.scopes ≠
      (Database.new.parse 1).stmt_parse_pass.stmt_parse ∧
    (Database.new.parse 1).stmt_parse_pass.prev_verify ≠
      (Database.new.parse 1).stmt_parse_pass.stmt_parse ∧
    (Database.new.parse 1).stmt_parse_pass.verify ≠
      (Database.new.parse 1).stmt_parse_pass.stmt_parse ∧
    (Database.new.parse 1).stmt_parse_pass.outline ≠
      (Database.new.parse 1).stmt_parse_pass.stmt_parse ∧
    (Database.new.parse 1).stmt_parse_pass.grammar ≠
      (Database.new.parse 1).stmt_parse_pass.stmt_parse := by
  decide

/-- C3 (amended): the two-slot previous/current protocol — take `previous`
(or a default), update it in place from the inputs, store one shared copy
into both slots — is followed by the nameset, scopes and verify passes.  The
outline, grammar and stmt_parse passes have no previous slot: outline and
stmt_parse build a default-constructed result from the inputs, grammar
constructs a fresh `Grammar::new(db)`, and each stores its result into its
current slot only (the record updates below change no other field). -/
theorem c3_pass_slot_protocol :
    (∀ db : Database, db.nameset = none →
      db.name_pass.nameset =
        some (PassVal.nameUpd (db.prev_nameset.getD PassVal.dflt) db.segments) ∧
      db.name_pass.prev_nameset = db.name_pass.nameset) ∧
    (∀ db : Database, db.scopes = none →
      db.scope_pass.scopes =
        some (PassVal.scopeUpd (db.name_pass.prev_scopes.getD PassVal.dflt)
          db.name_pass.segments (db.name_pass.nameset.getD PassVal.dflt)) ∧
      db.scope_pass.prev_scopes = db.scope_pass.scopes) ∧
    (∀ db : Database, db.verify = none →
      db.verify_pass.verify =
        some (PassVal.verifyUpd
          (db.name_pass.scope_pass.prev_verify.getD PassVal.dflt)
          db.name_pass.scope_pass.segments
          (db.name_pass.scope_pass.nameset.getD PassVal.dflt)
          (db.name_pass.scope_pass.scopes.getD PassVal.dflt)) ∧
      db.verify_pass.prev_verify = db.verify_pass.verify) ∧
    (∀ db : Database, db.outline = none →
      db.outline_pass =
        { db with outline := some (PassVal.outlineBuild db.segments) }) ∧
    (∀ db : Database, db.grammar = none →
      db.grammar_pass = { db.name_pass.scope_pass with
        grammar := some (PassVal.grammarNew db.name_pass.scope_pass.segments
          (db.name_pass.scope_pass.nameset.getD PassVal.dflt)
          (db.name_pass.scope_pass.scopes.getD PassVal.dflt)) }) ∧
    (∀ db : Database, db.stmt_parse = none →
      db.stmt_parse_pass = { db.name_pass.scope_pass.grammar_pass with
        stmt_parse := some (PassVal.stmtParseBuild
          db.name_pass.scope_pass.grammar_pass.segments
          (db.name_pass.scope_pass.grammar_pass.nameset.getD PassVal.dflt)
          (db.name_pass.scope_pass.grammar_pass.grammar.getD PassVal.dflt)) }) := by
  refine ⟨?_, ?_, ?_, ?_, ?_, ?_⟩
  · intro db h
    simp [Database.name_pass, h]
  · intro db h
    simp [Database.scope_pass, h]
  · intro db h
    simp [Database.verify_pass, h]
  · intro db h
    simp [Database.outline_pass, h]
  · intro db h
    simp [Database.grammar_pass, h]
  · intro db h
    simp [Database.stmt_parse_pass, h]

/-- C3 witness: the protocol conjuncts instantiated on the fresh database
(all of whose current slots are empty). -/
theorem c3_pass_slot_protocol_witness :
    (Database.new.name_pass.prev_nameset = Database.new.name_pass.nameset) ∧
    (Database.new.scope_pass.prev_scopes = Database.new.scope_pass.scopes) ∧
    (Database.new.verify_pass.prev_verify = Database.new.verify_pass.verify) ∧
    Database.new.outline_pass =
      { Database.new with
        outline := some (PassVal.outlineBuild Database.new.segments) } ∧
    Database.new.grammar_pass =
      { Database.new.name_pass.scope_pass with
        grammar := some (PassVal.grammarNew
          Database.new.name_pass.scope_pass.segments
          (Database.new.name_pass.scope_pass.nameset.getD PassVal.dflt)
          (Database.new.name_pass.scope_pass.scopes.getD PassVal.dflt)) } ∧
    Database.new.stmt_parse_pass =
      { Database.new.name_pass.scope_pass.grammar_pass with
        stmt_parse := some (PassVal.stmtParseBuild
          Database.new.name_pass.scope_pass.grammar_pass.segments
          (Database.new.name_pass.scope_pass.grammar_pass.nameset.getD
            PassVal.dflt)
          (Database.new.name_pass.scope_pass.grammar_pass.grammar.getD
            PassVal.dflt)) } :=
  ⟨(c3_pass_slot_protocol.1 Database.new rfl).2,
   (c3_pass_slot_protocol.2.1 Database.new rfl).2,
   (c3_pass_slot_protocol.2.2.1 Database.new rfl).2,
   c3_pass_slot_protocol.2.2.2.1 Database.new rfl,
   c3_pass_slot_protocol.2.2.2.2.1 Database.new rfl,
   c3_pass_slot_protocol.2.2.2.2.2 Database.new rfl⟩

/-- C4 counterexample: unification succeeds with the empty substitution map
although label 9 occurs at a variable node of the pattern — the variable sits
in a child beyond the zipped common prefix (the concrete side has one child
where the pattern has two, and `sub_unify` only compares presence/absence of
children), so it is never visited and never bound. -/
theorem c4_unvisited_pattern_variable :
    Formula.unify ⟨0, FTree.node 1 false [FTree.node 2 false []]⟩
        ⟨0, FTree.node 1 false [FTree.node 2 false [], FTree.node 9 true []]⟩ =
      some [] ∧
    9 ∈ varLabels
      (FTree.node 1 false [FTree.node 2 false [], FTree.node 9 true []]) ∧
    slookup [] 9 = none :=
  ⟨rfl, by decide, rfl⟩

/-- C4 (amended): whenever `a.unify(b)` succeeds, every label at a variable
node of `b` at a position actually visited by the zipped left-to-right
traversal against `a` appears as a key of the substitution map. -/
theorem c4_visited_pattern_vars_bound (a b : Formula) (s : Subst)
    (h : a.unify b = some s) :
    ∀ l, l ∈ patVars a.root b.root → (slookup s l).isSome = true :=
  fun l hl => subUnify_binds_patVars a.typecode a.root b.root [] s h l hl

/-- C4 witness: a visited pattern variable (label 7) is bound after a
successful unification. -/
theorem c4_visited_pattern_vars_bound_witness :
    (slookup [(7, (⟨4, FTree.node 6 false []⟩ : Formula))] 7).isSome = true :=
  c4_visited_pattern_vars_bound
    ⟨4, FTree.node 3 false [FTree.node 6 false []]⟩
    ⟨4, FTree.node 3 false [FTree.node 7 true []]⟩
    [(7, ⟨4, FTree.node 6 false []⟩)] rfl 7 (by decide)

/-- C5: if no key of `subs` occurs as the label of a variable node of `F`,
then `F.substitute(subs)` succeeds and the result is `==`-equal to `F`. -/
theorem c5_substitute_disjoint_id (f : Formula) (s : Subst)
    (h : ∀ l, l ∈ varLabels f.root → slookup s l = none) :
    ∃ f2, f.substitute s = some f2 ∧ f2.feq f = true := by
  refine ⟨⟨f.typecode, applySubst s f.root⟩, substitute_eq f s, ?_⟩
  show subEq (applySubst s f.root) f.root = true
  rw [applySubst_id s f.root h]
  exact subEq_refl f.root

/-- C5 witness: a substitution keyed on 9 leaves a formula whose only
variable label is 8 unchanged. -/
theorem c5_substitute_disjoint_id_witness :
    ∃ f2,
      Formula.substitute ⟨3, FTree.node 1 false [FTree.node 8 true []]⟩
        [(9, ⟨0, FTree.node 2 false []⟩)] = some f2 ∧
      f2.feq ⟨3, FTree.node 1 false [FTree.node 8 true []]⟩ = true :=
  c5_substitute_disjoint_id ⟨3, FTree.node 1 false [FTree.node 8 true []]⟩
    [(9, ⟨0, FTree.node 2 false []⟩)]
    (fun l hl => by
      have h8 : l = 8 := List.mem_singleton.mp hl
      subst h8
      rfl)

/-- C6 counterexample: at `var_count = 255`, `offset = 1` on a 256-entry
stack the claim's precondition holds, but the source aborts before touching
the stack: the `u8` sum `var_count + offset` overflows (checked addition;
under release wrapping the drained range's start exceeds its end on every
stack satisfying the precondition), so `reduce` does not complete with the
stack shape the claim describes. -/
theorem c6_u8_overflow_counterexample :
    u8Add 255 1 = none ∧
    255 + 1 ≤ (List.replicate 256 (FTree.node 0 false [])).length := by
  refine ⟨rfl, ?_⟩
  rw [List.length_replicate]

/-- C6 (amended): provided additionally that the `u8` sum does not overflow
(`varCount + offset ≤ 255`): with at least `varCount + offset` entries on
the stack, `reduce` pops exactly the contiguous range
`[len - varCount - offset, len - offset)` as the ordered children of one new
node with the given label, marks it as a variable iff `isVar`, inserts it at
position `len - varCount - offset`, and leaves the top `offset` entries
undisturbed. -/
theorem c6_reduce_contract (st : List FTree) (l vc off : Nat) (v : Bool)
    (_h255 : vc + off ≤ 255) (h : vc + off ≤ st.length) :
    FormulaBuilder.reduce ⟨st⟩ l vc off v =
      some ⟨st.take (st.length - vc - off) ++
            FTree.node l v ((st.drop (st.length - vc - off)).take vc) ::
            st.drop (st.length - off)⟩ := by
  have hnotlt : ¬ st.length < vc + off := by omega
  have hss : st.length - (vc + off) = st.length - vc - off :=
    (Nat.sub_sub st.length vc off).symm
  have hdiff : st.length - off - (st.length - vc - off) = vc := by omega
  simp only [FormulaBuilder.reduce, if_neg hnotlt]
  rw [hss, hdiff]
  have hlen : (st.take (st.length - vc - off)).length =
      st.length - vc - off := by
    rw [List.length_take]
    omega
  simp [listInsertAt, take_append_of_len _ _ _ hlen,
    drop_append_of_len _ _ _ hlen]

/-- C6 witness: reducing one child below one undisturbed top entry. -/
theorem c6_reduce_contract_witness :
    FormulaBuilder.reduce ⟨[FTree.node 11 false [], FTree.node 12 false [],
        FTree.node 13 false []]⟩ 9 1 1 true =
      some ⟨[FTree.node 11 false [],
             FTree.node 9 true [FTree.node 12 false []],
             FTree.node 13 false []]⟩ :=
  c6_reduce_contract [FTree.node 11 false [], FTree.node 12 false [],
    FTree.node 13 false []] 9 1 1 true (by decide) (by decide)

/-- C7: `build` aborts (returns the panic value) exactly when the stack does
not hold one node; on a singleton stack it returns the formula rooted at that
node, storing the given typecode. -/
theorem c7_build_contract :
    (∀ (fb : FormulaBuilder) (tc : Nat), fb.stack.length ≠ 1 →
      fb.build tc = none) ∧
    (∀ (t : FTree) (tc : Nat),
      FormulaBuilder.build ⟨[t]⟩ tc = some ⟨tc, t⟩) := by
  constructor
  · intro fb tc h
    rcases fb with ⟨stack⟩
    cases stack with
    | nil => rfl
    | cons t rest =>
      cases rest with
      | nil => exact (h rfl).elim
      | cons u rest2 => rfl
  · intro t tc
    rfl

/-- C7 witness: the empty stack aborts; a singleton stack builds. -/
theorem c7_build_contract_witness :
    FormulaBuilder.build ⟨[]⟩ 3 = none ∧
    FormulaBuilder.build ⟨[FTree.node 4 false []]⟩ 3 =
      some ⟨3, FTree.node 4 false []⟩ :=
  ⟨c7_build_contract.1 ⟨[]⟩ 3 (by decide),
   c7_build_contract.2 (FTree.node 4 false []) 3⟩

/-- C8: on the synchronous executor path, submitting any task returns
normally (the failure is not raised at submission time) with a promise whose
cell stores `catch_unwind` of the task; `wait` then re-raises a stored
failure and returns a normal result as-is. -/
theorem c8_promise_failure_semantics (E R : Type) (t : TaskRun E R) :
    (∃ c, execSync E R t = Except.ok c ∧
      promiseWait E R c = some (catchUnwind E R t)) ∧
    (∀ e, t = TaskRun.panicked e →
      (workerClosure E R t ⟨none⟩).slot = some (Except.error e) ∧
      promiseWait E R (workerClosure E R t ⟨none⟩) = some (Except.error e)) ∧
    (∀ v, t = TaskRun.ok v →
      promiseWait E R (workerClosure E R t ⟨none⟩) = some (Except.ok v)) := by
  refine ⟨⟨workerClosure E R t ⟨none⟩, rfl, ?_⟩, ?_, ?_⟩
  · cases t <;> rfl
  · intro e he
    subst he
    exact ⟨rfl, rfl⟩
  · intro v hv
    subst hv
    rfl

/-- C8 witness: a panicking task stores and re-raises its payload at `wait`;
a normal task returns its value. -/
theorem c8_promise_failure_semantics_witness :
    promiseWait Nat Nat (workerClosure Nat Nat (TaskRun.panicked 3) ⟨none⟩) =
      some (Except.error 3) ∧
    promiseWait Nat Nat (workerClosure Nat Nat (TaskRun.ok 5) ⟨none⟩) =
      some (Except.ok 5) :=
  ⟨((c8_promise_failure_semantics Nat Nat (TaskRun.panicked 3)).2.1 3 rfl).2,
   (c8_promise_failure_semantics Nat Nat (TaskRun.ok 5)).2.2 5 rfl⟩

/-- C9: formula equality is exactly recursive comparison of node labels and
of presence/absence of children along the zipped common prefix of the child
lists — it ignores the typecode and the variable marks, and a node with
strictly more children than its counterpart still compares equal when both
have children and the zipped pairs agree. -/
theorem c9_equality_characterization :
    (∀ t u : FTree, subEq t u = shapeEq (shape t) (shape u)) ∧
    (∀ (tc tc2 : Nat) (r r2 : FTree),
      Formula.feq ⟨tc, r⟩ ⟨tc2, r2⟩ = subEq r r2) ∧
    (subEq (FTree.node 1 false [FTree.node 2 false []])
        (FTree.node 1 true [FTree.node 2 true [], FTree.node 3 false []]) =
      true ∧
    [FTree.node 2 false []].length ≠
      [FTree.node 2 true [], FTree.node 3 false []].length) :=
  ⟨subEq_shape, fun _ _ _ _ => rfl, rfl, by decide⟩

/-- C10: every formula stored in a substitution map produced by
`a.unify(b)` carries `a`'s top-level typecode (`sub_formula` keeps the
original formula's typecode for the re-rooted copy). -/
theorem c10_unify_values_typecode (a b : Formula) (s : Subst)
    (h : a.unify b = some s) :
    ∀ l f, slookup s l = some f → f.typecode = a.typecode := by
  have hu : subUnify a.typecode a.root b.root [] = some s := h
  refine subUnify_allTc a.typecode a.root b.root [] s hu ?_
  intro l f hf
  simp [slookup] at hf

/-- C10 witness: unifying a typecode-5 formula against a typecode-8 variable
pattern stores a substitution value carrying typecode 5. -/
theorem c10_unify_values_typecode_witness :
    Formula.typecode ⟨5, FTree.node 1 false []⟩ = 5 ∧ ¬ (5 : Nat) = 8 :=
  ⟨c10_unify_values_typecode ⟨5, FTree.node 1 false []⟩
      ⟨8, FTree.node 9 true []⟩ [(9, ⟨5, FTree.node 1 false []⟩)] rfl 9
      ⟨5, FTree.node 1 false []⟩ rfl,
   by decide⟩
